import Mathlib

/-!
Shallow embedding of the async-task inspector for embedded firmware
(the `embassy_inspect` / `inspect_embassy` / `async_inspect_gdb` crates).

Embedded source:
- `embassy_inspect/src/model/task_pool.rs`: `StateType`, `HeaderLayout`,
  `TaskPool`, `TaskValue`, `TaskPoolValue`.
- `async_fn.rs` (debug-info walker): `Member`, `State`, `AsyncFnType`
  (`from_ddbug_struct`, `sort_members_by_offset`), `AsyncFnValue`, `StateValue`.
- `inspect_embassy/src/model/future.rs`: `SelectFuture`, `JoinAwaiteeType`,
  `JoinFuture`, `FutureType`, `FutureValue`, `SelectValue`, `JoinValue`.
- `inspect_embassy/src/model.rs`: `find_poll_function_addresses`,
  `find_function_in_inlined`.
- `embassy_inspect/src/lib.rs`: `EmbassyInspector::update_values`,
  `EmbassyInspector::handle_event`, `EmbassyInspector::new`.

Modelling conventions:
- Machine integers (`u64`, `usize`, bytes) are `Nat`; byte buffers are `List Nat`.
- Rust panics (out-of-range slicing and indexing, `assert_eq!` failure,
  integer division by zero, `unreachable!`) are modelled as `Except` failures
  carrying `RError.panic`; fallible adapter calls carry `String` errors.
- The value-reifier recursion of the source is unbounded; it is embedded with
  an explicit fuel parameter consumed once per `FutureValue::new` step, with
  `RError.fuel` marking exhaustion. All other functions are non-recursive
  bodies parameterised over the recursive call, so results at sufficient fuel
  coincide with the source recursion.
- `u32::from_ne_bytes` is native-endian; the host byte order is an explicit
  `Endian` parameter.
- `HashMap<Type, FutureType>` is modelled as an association list with
  first-match lookup; `HashMap<Member, usize>` (member dedup) is modelled by
  first-index lookup in the accumulated member list, which holds exactly the
  entries of the map in insertion order.
- `ddbug_parser` records (an external library) are modelled abstractly:
  `DMember`/`DVariant`/`DStruct` for struct debug info with member types
  pre-resolved to `Ty`, and `DRange`/`DInlinedFunction`/`DFunction` for
  function debug info, where `Function::cmp_id` identity is modelled by a
  numeric function id and `abstract_origin` resolves to such an id.
-/

/-- Failure modes of the embedded Rust code: `panic` models a Rust panic,
`fuel` marks exhaustion of the artificial recursion fuel (the source
recursion is unbounded). -/
inductive RError where
  | panic
  | fuel
deriving DecidableEq, Repr

/-- Host byte order, used to model `u32::from_ne_bytes`. -/
inductive Endian where
  | le
  | be
deriving DecidableEq, Repr

/-- Little-endian unsigned decoding of a byte list (zero-extended). -/
def leDecode (bytes : List Nat) : Nat :=
  bytes.foldr (fun b acc => b + 256 * acc) 0

/-- Native-endian unsigned decoding: little-endian on `le` hosts, byte-reversed
on `be` hosts (models `uN::from_ne_bytes`). -/
def neDecode (e : Endian) (bytes : List Nat) : Nat :=
  match e with
  | .le => leDecode bytes
  | .be => leDecode bytes.reverse

/-- Rust `&bytes[s..]`: panics when `s` exceeds the length. -/
def sliceFrom (bytes : List Nat) (s : Nat) : Except RError (List Nat) :=
  if s ≤ bytes.length then .ok (bytes.drop s) else .error .panic

/-- Rust `&bytes[..n]` (and the `try_into().unwrap()` pattern): panics when
fewer than `n` bytes are available. -/
def takeExact (bytes : List Nat) (n : Nat) : Except RError (List Nat) :=
  if n ≤ bytes.length then .ok (bytes.take n) else .error .panic

/-- Rust `bytes[0]`: panics on an empty slice. -/
def byteAt (bytes : List Nat) : Except RError Nat :=
  match bytes with
  | [] => .error .panic
  | b :: _ => .ok b

/-- Shared shape of the discriminant reads in `AsyncFnValue::new` and
`JoinValue::new`: `match size { 1 => u8::from_le_bytes(..), 2 => u16, 4 => u32,
8 => u64, _ => unreachable!() }` on a prefix of `bytes`. -/
def readLeUint (bytes : List Nat) (size : Nat) : Except RError Nat :=
  if size = 1 ∨ size = 2 ∨ size = 4 ∨ size = 8 then
    (takeExact bytes size).map leDecode
  else
    .error .panic

/-- Effectful map over a list in the `Except` monad, modelling the source
`for`-loops that push one result per element and propagate failures
(and the fallible `Iterator::map ... collect::<Result<_>>` pattern). -/
def mapE (f : α → Except ε β) : List α → Except ε (List β)
  | [] => .ok []
  | a :: rest => do
    let b ← f a
    let bs ← mapE f rest
    .ok (b :: bs)

/-- Type descriptor (`ty.rs`, `enum Type`); `Base` is the source `Type::Base`
holding a fully qualified name, `Refrence` keeps the source spelling. -/
inductive Ty where
  | Unknown
  | Void
  | Array (inner : Ty) (count : Nat)
  | Pointer (inner : Ty)
  | Refrence (inner : Ty)
  | Base (name : String)
deriving DecidableEq, Repr, Inhabited

/-- Source location (`model.rs`, `struct Source`). -/
structure Source where
  path : String
  line : Nat
  column : Nat
deriving DecidableEq, Repr

/-- Member of a future struct (`async_fn.rs`, `struct Member`). -/
structure Member where
  name : String
  ty : Ty
  offset : Nat
  size : Nat
deriving DecidableEq, Repr

instance : Inhabited Member := ⟨⟨"", .Unknown, 0, 0⟩⟩

/-- One coroutine state (`async_fn.rs`, `struct State`). -/
structure State where
  discriminant_value : Nat
  active_members : List Nat
  awaitee : Option Member
  name : String
  source : Option Source
deriving DecidableEq, Repr

/-- Layout of a compiler-generated future type (`async_fn.rs`,
`struct AsyncFnType`). -/
structure AsyncFnType where
  members : List Member
  state_member : Member
  total_size : Nat
  states : List State
deriving DecidableEq, Repr

/-- Variant of the `MaybeDone` wrapper used by join-like combinators
(`future.rs`, `struct JoinAwaiteeTypeVariant`). -/
structure JoinAwaiteeTypeVariant where
  discriminant : Nat
  offset : Nat
  size : Nat
  ty : Ty
deriving DecidableEq, Repr

/-- Layout of one `MaybeDone` child of a join-like combinator (`future.rs`,
`struct JoinAwaiteeType`). -/
structure JoinAwaiteeType where
  discriminant_offset : Nat
  discriminant_size : Nat
  future_variant : JoinAwaiteeTypeVariant
  done_variant : JoinAwaiteeTypeVariant
deriving DecidableEq, Repr

/-- Layout of a select-like combinator (`future.rs`, `struct SelectFuture`):
children at byte offsets with their type descriptors. -/
structure SelectFuture where
  awaitees : List (Nat × Ty)
deriving DecidableEq, Repr

/-- Layout of a join-like combinator (`future.rs`, `struct JoinFuture`). -/
structure JoinFuture where
  awaitees : List (Nat × JoinAwaiteeType)
deriving DecidableEq, Repr

/-- Kind of a recognised future type (`future.rs`, `enum FutureTypeKind`). -/
inductive FutureTypeKind where
  | AsyncFn (t : AsyncFnType)
  | Select (t : SelectFuture)
  | Join (t : JoinFuture)
deriving DecidableEq, Repr

/-- A recognised future type (`future.rs`, `struct FutureType`). -/
structure FutureType where
  kind : FutureTypeKind
deriving DecidableEq, Repr

/-- The interned future-type table, `HashMap<Type, FutureType>`, modelled as an
association list. -/
def FutureTypes := List (Ty × FutureType)

/-- Map lookup (`future_types.get(ty)`), first match by structural equality. -/
def lookupFutureType (m : FutureTypes) (ty : Ty) : Option FutureType :=
  (List.find? (fun p => p.1 = ty) m).map Prod.snd

mutual
/-- A reified future value (`future.rs`, `struct FutureValue`). -/
inductive FutureValue where
  | mk (ty : Ty) (kind : FutureValueKind)

/-- Kind of a reified future value (`future.rs`, `enum FutureValueKind`);
`Unknown` is the opaque case carrying raw bytes. -/
inductive FutureValueKind where
  | AsyncFn (v : AsyncFnValue)
  | SelectValue (v : SelectValue)
  | JoinValue (v : JoinValue)
  | Unknown (bytes : List Nat)

/-- A reified async-fn value (`async_fn.rs`, `struct AsyncFnValue`); the error
side of `state_value` carries the unmatched discriminant. -/
inductive AsyncFnValue where
  | mk (ty : AsyncFnType) (state_value : Except Nat StateValue)

/-- The decoded current state (`async_fn.rs`, `struct StateValue`). -/
inductive StateValue where
  | mk (state : State) (members : List MemberValue) (awaitee : Option FutureValue)

/-- A member with its raw bytes (`async_fn.rs`, `struct MemberValue`). -/
inductive MemberValue where
  | mk (member : Member) (bytes : List Nat)

/-- Reified select-combinator children (`future.rs`, `struct SelectValue`). -/
inductive SelectValue where
  | mk (awaitees : List FutureValue)

/-- Reified join-combinator children (`future.rs`, `struct JoinValue`). -/
inductive JoinValue where
  | mk (awaitees : List FutureValue)
end

/-- Field accessor for `FutureValue.ty`. -/
def FutureValue.ty : FutureValue → Ty
  | .mk t _ => t

/-- Field accessor for `FutureValue.kind`. -/
def FutureValue.kind : FutureValue → FutureValueKind
  | .mk _ k => k

/-- Field accessor for `AsyncFnValue.ty`. -/
def AsyncFnValue.ty : AsyncFnValue → AsyncFnType
  | .mk t _ => t

/-- Field accessor for `AsyncFnValue.state_value`. -/
def AsyncFnValue.state_value : AsyncFnValue → Except Nat StateValue
  | .mk _ s => s

/-- Field accessor for `StateValue.state`. -/
def StateValue.state : StateValue → State
  | .mk s _ _ => s

/-- Field accessor for `StateValue.members`. -/
def StateValue.members : StateValue → List MemberValue
  | .mk _ m _ => m

/-- Field accessor for `StateValue.awaitee`. -/
def StateValue.awaitee : StateValue → Option FutureValue
  | .mk _ _ a => a

/-- Field accessor for `SelectValue.awaitees`. -/
def SelectValue.awaitees : SelectValue → List FutureValue
  | .mk l => l

/-- Field accessor for `JoinValue.awaitees`. -/
def JoinValue.awaitees : JoinValue → List FutureValue
  | .mk l => l

/-- Shape of the recursive call threaded through the reifier bodies:
`FutureValue::new` applied at the next recursion depth. -/
def FutureRec := Ty → List Nat → FutureTypes → Except RError FutureValue

/-- Body of `StateValue::new` (`async_fn.rs`): slice each active member
verbatim (`bytes[offset..][..size]`, indexing `members[*member]` panics when
out of range), then reify the awaitee window when present. -/
def StateValue.newWith (recF : FutureRec) (state : State) (bytes : List Nat)
    (async_fn_type : AsyncFnType) (future_types : FutureTypes) :
    Except RError StateValue := do
  let members ← mapE (fun i => do
      let member ← match async_fn_type.members.get? i with
        | some m => Except.ok m
        | none => Except.error RError.panic
      let bs ← sliceFrom bytes member.offset
      let bs ← takeExact bs member.size
      Except.ok (MemberValue.mk member bs)) state.active_members
  let awaitee ← match state.awaitee with
    | none => Except.ok none
    | some aw => do
        let bs ← sliceFrom bytes aw.offset
        let bs ← takeExact bs aw.size
        let fv ← recF aw.ty bs future_types
        Except.ok (some fv)
  Except.ok (StateValue.mk state members awaitee)

/-- Body of `AsyncFnValue::new` (`async_fn.rs`): read the state discriminant
(`state_member.size` bytes at `state_member.offset`, little-endian,
zero-extended), find the first state with that discriminant, and either decode
it or record the unmatched discriminant. -/
def AsyncFnValue.newWith (recF : FutureRec) (async_fn_type : AsyncFnType)
    (bytes : List Nat) (future_types : FutureTypes) :
    Except RError AsyncFnValue := do
  let sbytes ← sliceFrom bytes async_fn_type.state_member.offset
  let state_discriminant ← readLeUint sbytes async_fn_type.state_member.size
  match async_fn_type.states.find?
      (fun s => s.discriminant_value = state_discriminant) with
  | some s => do
      let sv ← StateValue.newWith recF s bytes async_fn_type future_types
      Except.ok (AsyncFnValue.mk async_fn_type (.ok sv))
  | none => Except.ok (AsyncFnValue.mk async_fn_type (.error state_discriminant))

/-- Body of `SelectValue::new` (`future.rs`): reify every child from its byte
offset. -/
def SelectValue.newWith (recF : FutureRec) (select_type : SelectFuture)
    (bytes : List Nat) (future_types : FutureTypes) :
    Except RError SelectValue := do
  let awaitees ← mapE (fun p => do
      let bs ← sliceFrom bytes p.1
      recF p.2 bs future_types) select_type.awaitees
  Except.ok (SelectValue.mk awaitees)

/-- Body of the per-child closure in `JoinValue::new` (`future.rs`): read the
`MaybeDone` discriminant at its own offset and width, then recurse through the
`Future` variant, produce an opaque value of the `Done` type, or an empty
opaque `Void` value (the output was taken by `take_output`). -/
def JoinValue.newChildWith (recF : FutureRec) (offset : Nat)
    (ty : JoinAwaiteeType) (bytes : List Nat) (future_types : FutureTypes) :
    Except RError FutureValue := do
  let bs ← sliceFrom bytes offset
  let disc_bytes ← sliceFrom bs ty.discriminant_offset
  let discriminant ← readLeUint disc_bytes ty.discriminant_size
  if discriminant = ty.future_variant.discriminant then do
    let fb ← sliceFrom bs ty.future_variant.offset
    let fb ← takeExact fb ty.future_variant.size
    recF ty.future_variant.ty fb future_types
  else if discriminant = ty.done_variant.discriminant then do
    let db ← sliceFrom bs ty.done_variant.offset
    let db ← takeExact db ty.done_variant.size
    Except.ok (FutureValue.mk ty.done_variant.ty (.Unknown db))
  else
    Except.ok (FutureValue.mk Ty.Void (.Unknown []))

/-- Body of `JoinValue::new` (`future.rs`): decode every `MaybeDone` child. -/
def JoinValue.newWith (recF : FutureRec) (join_type : JoinFuture)
    (bytes : List Nat) (future_types : FutureTypes) :
    Except RError JoinValue := do
  let awaitees ← mapE (fun p =>
      JoinValue.newChildWith recF p.1 p.2 bytes future_types) join_type.awaitees
  Except.ok (JoinValue.mk awaitees)

/-- The reifier entry point `FutureValue::new` (`future.rs`): look the type up
in `future_types` and dispatch; a miss yields the opaque value carrying the
whole byte window. The source recursion is unbounded; here one unit of fuel is
consumed per recursive step. -/
def FutureValue.new : Nat → Ty → List Nat → FutureTypes → Except RError FutureValue
  | 0, _, _, _ => .error .fuel
  | fuel + 1, ty, bytes, future_types =>
    match lookupFutureType future_types ty with
    | some ⟨.AsyncFn t⟩ =>
        (AsyncFnValue.newWith (FutureValue.new fuel) t bytes future_types).map
          (fun v => FutureValue.mk ty (.AsyncFn v))
    | some ⟨.Select t⟩ =>
        (SelectValue.newWith (FutureValue.new fuel) t bytes future_types).map
          (fun v => FutureValue.mk ty (.SelectValue v))
    | some ⟨.Join t⟩ =>
        (JoinValue.newWith (FutureValue.new fuel) t bytes future_types).map
          (fun v => FutureValue.mk ty (.JoinValue v))
    | none => .ok (FutureValue.mk ty (.Unknown bytes))

/-- `AsyncFnValue::new` at a given recursion fuel. -/
def AsyncFnValue.new (fuel : Nat) (async_fn_type : AsyncFnType)
    (bytes : List Nat) (future_types : FutureTypes) : Except RError AsyncFnValue :=
  AsyncFnValue.newWith (FutureValue.new fuel) async_fn_type bytes future_types

/-- `FutureValue::async_fn` (`future.rs`): wrap an async-fn value. -/
def FutureValue.async_fn (ty : Ty) (async_fn_value : AsyncFnValue) : FutureValue :=
  FutureValue.mk ty (.AsyncFn async_fn_value)

/-- Width of the task-header state word (`task_pool.rs`, `enum StateType`):
a single `u8` or a single `u32`. -/
inductive StateType where
  | U8
  | U32
deriving DecidableEq, Repr

/-- Task-header layout (`task_pool.rs`, `struct HeaderLayout`). -/
structure HeaderLayout where
  state_offset : Nat
  state_type : StateType
deriving DecidableEq, Repr

/-- `HeaderLayout::is_init` (`task_pool.rs`): slice from `state_offset`, then
test `bytes[0] > 0` for `U8` or `u32::from_ne_bytes(bytes[..4]) > 0` for
`U32`. The native byte order is the `Endian` parameter. -/
def HeaderLayout.is_init (e : Endian) (h : HeaderLayout) (bytes : List Nat) :
    Except RError Bool := do
  let bytes ← sliceFrom bytes h.state_offset
  match h.state_type with
  | .U8 => do
      let b ← byteAt bytes
      Except.ok (decide (0 < b))
  | .U32 => do
      let w ← takeExact bytes 4
      Except.ok (decide (0 < neDecode e w))

/-- Memory layout and location of one task pool (`task_pool.rs`,
`struct TaskPool`). -/
structure TaskPool where
  path : String
  address : Nat
  size : Nat
  future_offset : Nat
  number_of_tasks : Nat
  async_fn_type : AsyncFnType
  async_fn_base_type : Ty
  header_layout : HeaderLayout

/-- Value of one task slot (`task_pool.rs`, `enum TaskValue`). -/
inductive TaskValue where
  | Uninit
  | Init (v : FutureValue)

/-- Values of a whole task pool (`task_pool.rs`, `struct TaskPoolValue`). -/
structure TaskPoolValue where
  task_pool : TaskPool
  task_values : List TaskValue

/-- Body of `TaskPoolValue::new` after the `assert_eq!` length guard
(`task_pool.rs`): `len_single_task = size / number_of_tasks` (a Rust `u64`
division, which panics when `number_of_tasks` is zero), then for every slot
take the suffix at `len_single_task * task`, apply the header init predicate,
and either keep the slot uninitialised or reify the future from the suffix at
`future_offset`. -/
def TaskPoolValue.newBody (fuel : Nat) (e : Endian) (task_pool : TaskPool)
    (bytes : List Nat) (future_types : FutureTypes) :
    Except RError TaskPoolValue :=
  if task_pool.number_of_tasks = 0 then .error .panic
  else
    let len_single_task := task_pool.size / task_pool.number_of_tasks
    (mapE (fun task => do
        let bs ← sliceFrom bytes (len_single_task * task)
        let init ← HeaderLayout.is_init e task_pool.header_layout bs
        if init then do
          let fb ← sliceFrom bs task_pool.future_offset
          let av ← AsyncFnValue.new fuel task_pool.async_fn_type fb future_types
          Except.ok (TaskValue.Init
            (FutureValue.async_fn task_pool.async_fn_base_type av))
        else
          Except.ok TaskValue.Uninit) (List.range task_pool.number_of_tasks)).map
      (fun task_values => ⟨task_pool, task_values⟩)

/-- `TaskPoolValue::new` (`task_pool.rs`): `assert_eq!(bytes.len() as u64,
task_pool.size)` then the slot loop of `TaskPoolValue.newBody`. -/
def TaskPoolValue.new (fuel : Nat) (e : Endian) (task_pool : TaskPool)
    (bytes : List Nat) (future_types : FutureTypes) :
    Except RError TaskPoolValue :=
  if bytes.length = task_pool.size then
    TaskPoolValue.newBody fuel e task_pool bytes future_types
  else
    .error .panic

/-- The adapter capability (`callback.rs`, `trait Callback`), modelled as a
record of oracles: `read_memory` maps an address and length to bytes or a
structured error, `resume` and `set_breakpoint` yield the outcome the adapter
would produce. -/
structure Callback where
  read_memory : Nat → Nat → Except String (List Nat)
  resume : Except String Unit
  set_breakpoint : Nat → Except String Nat

/-- Errors escaping the controller: a Rust panic aborting the process, or an
adapter error propagated through `anyhow::Result`. -/
inductive RunError where
  | panics (e : RError)
  | failure (msg : String)
deriving DecidableEq, Repr

/-- `EmbassyInspector::update_values` (`lib.rs`): clear the previous snapshot,
then for every pool read its whole region in one `read_memory(address, size)`
call; a read error is logged and the pool skipped, while a panic inside
`TaskPoolValue::new` aborts. -/
def update_values (fuel : Nat) (e : Endian) (pools : List TaskPool)
    (future_types : FutureTypes) (cb : Callback) :
    Except RError (List TaskPoolValue) :=
  match pools with
  | [] => .ok []
  | pool :: rest =>
    match cb.read_memory pool.address pool.size with
    | .error _ => update_values fuel e rest future_types cb
    | .ok bytes => do
        let v ← TaskPoolValue.new fuel e pool bytes future_types
        let vs ← update_values fuel e rest future_types cb
        .ok (v :: vs)

/-- Variant of `update_values` that enters the slot loop directly, bypassing
the `assert_eq!` length guard of `TaskPoolValue::new`; used to state that on
the snapshot path the guard never fires. -/
def update_values_unchecked (fuel : Nat) (e : Endian) (pools : List TaskPool)
    (future_types : FutureTypes) (cb : Callback) :
    Except RError (List TaskPoolValue) :=
  match pools with
  | [] => .ok []
  | pool :: rest =>
    match cb.read_memory pool.address pool.size with
    | .error _ => update_values_unchecked fuel e rest future_types cb
    | .ok bytes => do
        let v ← TaskPoolValue.newBody fuel e pool bytes future_types
        let vs ← update_values_unchecked fuel e rest future_types cb
        .ok (v :: vs)

/-- The mouse button of a click (`lib.rs`, `enum ClickButton`). -/
inductive ClickButton where
  | Left
  | Middle
  | Right
deriving DecidableEq, Repr

/-- External events (`lib.rs`, `enum Event`); `Stoped` keeps the source
spelling. -/
inductive Event where
  | Redraw
  | Click (pos : Nat × Nat) (button : ClickButton)
  | Scroll (amount : Int)
  | Breakpoint (id : Nat)
  | Stoped

/-- Controller state (`lib.rs`, `struct EmbassyInspector`), restricted to the
model-relevant fields; the terminal, UI state and formatting cache belong to
the out-of-scope presenter. -/
structure EmbassyInspector where
  poll_break_point_ids : List Nat
  task_pools : List TaskPool
  future_types : FutureTypes
  last_values : List TaskPoolValue

/-- `EmbassyInspector::handle_event` (`lib.rs`): `Redraw`, `Click` and
`Scroll` touch no memory; `Breakpoint(i)` takes a snapshot and then — when `i`
is one of the registered safepoint breakpoints — calls `callback.resume()?`,
propagating its error to the caller; `Stoped` takes a snapshot without
resuming. Terminal drawing is out of scope and omitted. -/
def handle_event (fuel : Nat) (e : Endian) (insp : EmbassyInspector)
    (cb : Callback) : Event → Except RunError EmbassyInspector
  | .Redraw => .ok insp
  | .Click _ _ => .ok insp
  | .Scroll _ => .ok insp
  | .Breakpoint i =>
    match update_values fuel e insp.task_pools insp.future_types cb with
    | .error err => .error (.panics err)
    | .ok vs =>
      let insp := { insp with last_values := vs }
      if insp.poll_break_point_ids.contains i then
        match cb.resume with
        | .ok _ => .ok insp
        | .error msg => .error (.failure msg)
      else
        .ok insp
  | .Stoped =>
    match update_values fuel e insp.task_pools insp.future_types cb with
    | .error err => .error (.panics err)
    | .ok vs => .ok { insp with last_values := vs }

/-- Construction (`EmbassyInspector::new`, `lib.rs`), restricted to the model:
install one breakpoint per safepoint address, propagating `set_breakpoint`
errors with `?`, then take the initial snapshot. -/
def EmbassyInspector.new (fuel : Nat) (e : Endian)
    (poll_done_addresses : List Nat) (pools : List TaskPool)
    (future_types : FutureTypes) (cb : Callback) :
    Except RunError EmbassyInspector :=
  match mapE cb.set_breakpoint poll_done_addresses with
  | .error msg => .error (.failure msg)
  | .ok ids =>
    match update_values fuel e pools future_types cb with
    | .error err => .error (.panics err)
    | .ok vs => .ok ⟨ids, pools, future_types, vs⟩

/-- Abstract model of `ddbug_parser::Member`: name, resolved type, bit offset
and optional bit size. -/
structure DMember where
  name : Option String
  ty : Option Ty
  bit_offset : Nat
  bit_size : Option Nat
deriving DecidableEq, Repr

/-- Abstract model of `ddbug_parser::Variant`: name, optional discriminant
value, members and (pre-converted) source location. -/
structure DVariant where
  name : Option String
  discriminant_value : Option Nat
  members : List DMember
  source : Option Source
deriving DecidableEq, Repr

/-- Abstract model of `ddbug_parser::VariantPart`. -/
structure DVariantPart where
  variants : List DVariant
deriving DecidableEq, Repr

/-- Abstract model of a `ddbug_parser::StructType` as consumed by
`AsyncFnType::from_ddbug_struct`: top-level members, variant parts and byte
size. -/
structure DStruct where
  byte_size : Option Nat
  members : List DMember
  variant_parts : List DVariantPart
deriving DecidableEq, Repr

/-- `Member::from_ddbug_member` (`async_fn.rs`): the name and bit size are
required, the type falls back to `Unknown`, offsets and sizes are converted
from bits to bytes. -/
def Member.from_ddbug_member (m : DMember) : Except String Member := do
  let name ← match m.name with
    | some n => Except.ok n
    | none => Except.error "members should have names"
  let size ← match m.bit_size with
    | some s => Except.ok s
    | none => Except.error "member should have known sizes"
  Except.ok ⟨name, m.ty.getD .Unknown, m.bit_offset / 8, size / 8⟩

/-- `State::from_ddbug_variant` (`async_fn.rs`): the discriminant value is
mandatory, the name falls back to `<unknown>`. -/
def State.from_ddbug_variant (variant : DVariant) (active_members : List Nat)
    (awaitee : Option Member) : Except String State := do
  let discriminant_value ← match variant.discriminant_value with
    | some d => Except.ok d
    | none =>
        Except.error "future type varaints should always have discriminant values"
  Except.ok ⟨discriminant_value, active_members, awaitee,
    variant.name.getD "<unknown>", variant.source⟩

/-- The per-variant member loop of `AsyncFnType::from_ddbug_struct`
(`async_fn.rs`): set `__awaitee` members aside (at most one per variant), drop
zero-sized members, deduplicate the rest by structural equality (the
`member_to_id` map is the first-index lookup in the accumulated list), and
record each id at most once per variant. -/
def processVariantMembers : List DMember → List Member → List Nat →
    Option Member → Except String (List Member × List Nat × Option Member)
  | [], members, active_members, awaitee => .ok (members, active_members, awaitee)
  | dm :: rest, members, active_members, awaitee => do
    let member ← Member.from_ddbug_member dm
    if member.name = "__awaitee" then
      if awaitee.isSome then
        .error "future type contains variants with multiple awaitees"
      else
        processVariantMembers rest members active_members (some member)
    else if member.size = 0 then
      processVariantMembers rest members active_members awaitee
    else
      match members.findIdx? (fun m => m = member) with
      | some id =>
          processVariantMembers rest members
            (if active_members.contains id then active_members
             else active_members ++ [id]) awaitee
      | none =>
          let id := members.length
          processVariantMembers rest (members ++ [member])
            (if active_members.contains id then active_members
             else active_members ++ [id]) awaitee

/-- The variant loop of `AsyncFnType::from_ddbug_struct` (`async_fn.rs`):
thread the deduplicated member list through every variant and push one state
per variant. -/
def processVariants : List DVariant → List Member → List State →
    Except String (List Member × List State)
  | [], members, states => .ok (members, states)
  | v :: rest, members, states => do
    let (members, active_members, awaitee) ←
      processVariantMembers v.members members [] none
    let s ← State.from_ddbug_variant v active_members awaitee
    processVariants rest members (states ++ [s])

/-- `AsyncFnType::sort_members_by_offset` (`async_fn.rs`): sort the member
list ascending by offset (the source `sort_unstable_by_key` is modelled by a
sort with the same key), rewrite every state id through the old-to-new
permutation (the source indexes `new_ids[*active_member]`, modelled totally
with default `0`; ids are in range by construction) and sort each id list. -/
def AsyncFnType.sort_members_by_offset (t : AsyncFnType) : AsyncFnType :=
  let old_ids := List.insertionSort
    (fun a b =>
      (t.members.getD a default).offset ≤ (t.members.getD b default).offset)
    (List.range t.members.length)
  let new_members := old_ids.map (fun i => t.members.getD i default)
  let new_id := fun old => (old_ids.findIdx? (fun j => j = old)).getD 0
  let states := t.states.map (fun s =>
    { s with active_members :=
        List.insertionSort (fun a b => a ≤ b) (s.active_members.map new_id) })
  { t with members := new_members, states := states }

/-- `AsyncFnType::from_ddbug_struct` (`async_fn.rs`): exactly one variant
part, the member/state extraction, the single top-level `__state` member, the
total byte size, then the offset sort. -/
def AsyncFnType.from_ddbug_struct (st : DStruct) : Except String AsyncFnType := do
  let variant_part ← match st.variant_parts with
    | [vp] => Except.ok vp
    | _ => Except.error "Future types should always have a single variant part"
  let (members, states) ← processVariants variant_part.variants [] []
  let state_member_d ← match st.members with
    | [m] => Except.ok m
    | _ => Except.error "Future types should always have a member"
  let state_member ← Member.from_ddbug_member state_member_d
  if state_member.name = "__state" then
    let total_size ← match st.byte_size with
      | some s => Except.ok s
      | none => Except.error "Future types should have a size"
    Except.ok (AsyncFnType.sort_members_by_offset
      ⟨members, state_member, total_size, states⟩)
  else
    Except.error "Future types should always have a member named __state"

/-- An address range of debug info (`ddbug_parser::Range`); `rbegin`/`rend`
stand for the source fields `begin`/`end` (Lean keywords). -/
structure DRange where
  rbegin : Nat
  rend : Nat
deriving DecidableEq, Repr

mutual
/-- Abstract model of `ddbug_parser::InlinedFunction`: the resolved
`abstract_origin` (as the id of the origin function), the address ranges, and
the nested inlined functions. -/
inductive DInlinedFunction where
  | mk (abstract_origin : Option Nat) (ranges : List DRange)
      (inlined_functions : DInlinedForest)

/-- A list of inlined functions, encoded mutually so that the recursion over
the tree is structural. -/
inductive DInlinedForest where
  | nil
  | cons (head : DInlinedFunction) (tail : DInlinedForest)
end

/-- Field accessor for `DInlinedFunction.abstract_origin`. -/
def DInlinedFunction.abstract_origin : DInlinedFunction → Option Nat
  | .mk o _ _ => o

/-- Field accessor for `DInlinedFunction.ranges`. -/
def DInlinedFunction.ranges : DInlinedFunction → List DRange
  | .mk _ r _ => r

/-- Field accessor for `DInlinedFunction.inlined_functions`. -/
def DInlinedFunction.inlined_functions : DInlinedFunction → DInlinedForest
  | .mk _ _ f => f

/-- Abstract model of a `ddbug_parser::Function`: an id standing for
`Function::cmp_id` identity, the name, linkage name, the namespace already
flattened by `namespace_to_path`, the address ranges, the inline flag, and the
inlined-function tree from `FunctionDetails`. -/
structure DFunction where
  id : Nat
  name : Option String
  linkage_name : Option String
  namespace_path : Option String
  ranges : List DRange
  is_inline : Bool
  inlined_functions : DInlinedForest

/-- Substring test, modelling Rust `str::contains` for string patterns,
expressed on the character lists of the strings. -/
def strContains (s pat : String) : Bool :=
  (List.range (s.data.length + 1)).any
    (fun i => pat.data.isPrefixOf (s.data.drop i))

/-- Rust `str::starts_with`, on the character lists. -/
def strStartsWith (s pat : String) : Bool :=
  pat.data.isPrefixOf s.data

/-- Rust `str::ends_with`, on the character lists. -/
def strEndsWith (s pat : String) : Bool :=
  pat.data.isSuffixOf s.data

/-- The candidate test of `find_poll_function_addresses` (`model.rs`): the
name contains `{closure`, the linkage name contains `SyncExecutor`, and the
namespace path starts with `embassy_executor::raw` and ends in `poll`. -/
def is_poll_candidate (f : DFunction) : Bool :=
  match f.name, f.linkage_name, f.namespace_path with
  | some name, some linkage_name, some ns =>
      strContains name "\x7bclosure" && strContains linkage_name "SyncExecutor"
        && strStartsWith ns "embassy_executor::raw" && strEndsWith ns "poll"
  | _, _, _ => false

mutual
/-- `find_function_in_inlined` (`model.rs`): when the abstract origin of this
inlining resolves to the given function, push `range.end` for every range
whose `begin` is nonzero (ranges beginning at 0 are a debug-info artifact and
are skipped), then recurse into the nested inlinings. The pushed addresses are
returned in push order. -/
def find_function_in_inlined (function : DFunction) :
    DInlinedFunction → List Nat
  | .mk abstract_origin ranges inlined_functions =>
    (if abstract_origin = some function.id then
      (ranges.filter (fun r => decide (r.rbegin ≠ 0))).map (fun r => r.rend)
    else []) ++ find_function_in_inlined_forest function inlined_functions

/-- The loop over nested inlinings of `find_function_in_inlined`. -/
def find_function_in_inlined_forest (function : DFunction) :
    DInlinedForest → List Nat
  | .nil => []
  | .cons head tail =>
    find_function_in_inlined function head
      ++ find_function_in_inlined_forest function tail
end

/-- One step of the candidate scan in `find_poll_function_addresses`
(`model.rs`): a candidate with exactly one range returns `[range.end - 4]`
immediately; otherwise an inlined candidate breaks out to the inline search;
any other function continues the scan. -/
def poll_scan_step (f : DFunction) : Option (Sum (List Nat) DFunction) :=
  if is_poll_candidate f then
    match f.ranges with
    | [range] => some (.inl [range.rend - 4])
    | _ => if f.is_inline then some (.inr f) else none
  else none

/-- The candidate scan loop of `find_poll_function_addresses`: the first
function on which `poll_scan_step` stops decides the outcome. -/
def poll_scan : List DFunction → Option (Sum (List Nat) DFunction)
  | [] => none
  | f :: rest =>
    match poll_scan_step f with
    | some r => some r
    | none => poll_scan rest

/-- `find_poll_function_addresses` (`model.rs`): scan every function of every
unit; a single-range candidate yields its range end minus 4; an inlined
candidate is searched for in the inlined-function trees of all functions; no
candidate yields the empty list. -/
def find_poll_function_addresses (units : List (List DFunction)) : List Nat :=
  match poll_scan units.flatten with
  | none => []
  | some (.inl addresses) => addresses
  | some (.inr poll_function) =>
    (units.flatten).flatMap
      (fun f => find_function_in_inlined_forest poll_function f.inlined_functions)

mutual
/-- Preorder listing of an inlined-function tree (the node, then its nested
inlinings); used only to state which inlinings the locator visits. -/
def DInlinedFunction.preorder : DInlinedFunction → List DInlinedFunction
  | .mk o r fs => .mk o r fs :: DInlinedForest.preorder fs

/-- Preorder listing of an inlined-function forest. -/
def DInlinedForest.preorder : DInlinedForest → List DInlinedFunction
  | .nil => []
  | .cons head tail => DInlinedFunction.preorder head ++ DInlinedForest.preorder tail
end

/-- Success of a monadic bind in `Except` splits into success of both steps. -/
theorem except_bind_ok {ε α β : Type} {x : Except ε α} {f : α → Except ε β}
    {b : β} : (x >>= f) = Except.ok b ↔ ∃ a, x = Except.ok a ∧ f a = Except.ok b := by
  cases x with
  | error e =>
      constructor
      · intro h; exact absurd h (by simp [Bind.bind, Except.bind])
      · rintro ⟨a, ha, _⟩; cases ha
  | ok a =>
      constructor
      · intro h; exact ⟨a, rfl, h⟩
      · rintro ⟨a2, ha, hf⟩; cases ha; exact hf

/-- Unfolding of `leDecode` on a cons cell. -/
theorem leDecode_cons (b : Nat) (l : List Nat) :
    leDecode (b :: l) = b + 256 * leDecode l := rfl

/-- A little-endian decode is zero exactly when every byte is zero. -/
theorem leDecode_eq_zero_iff (l : List Nat) :
    leDecode l = 0 ↔ ∀ b ∈ l, b = 0 := by
  induction l with
  | nil => simp [leDecode]
  | cons b rest ih =>
      rw [leDecode_cons]
      simp only [List.mem_cons]
      constructor
      · intro h
        have hb : b = 0 := by omega
        have hr : leDecode rest = 0 := by omega
        intro x hx
        rcases hx with hx | hx
        · exact hx ▸ hb
        · exact ih.mp hr x hx
      · intro h
        have hb : b = 0 := h b (Or.inl rfl)
        have hr : leDecode rest = 0 := ih.mpr (fun x hx => h x (Or.inr hx))
        omega

/-- Native-endian and little-endian decodes are zero together: zero-ness of a
word does not depend on byte order. -/
theorem neDecode_eq_zero_iff (e : Endian) (l : List Nat) :
    neDecode e l = 0 ↔ leDecode l = 0 := by
  cases e with
  | le => exact Iff.rfl
  | be =>
      show leDecode l.reverse = 0 ↔ leDecode l = 0
      rw [leDecode_eq_zero_iff, leDecode_eq_zero_iff]
      constructor <;> intro h b hb
      · exact h b (List.mem_reverse.mpr hb)
      · exact h b (List.mem_reverse.mp hb)

/-- A successful `mapE` has one result per input, each produced by `f` on the
corresponding element. -/
theorem mapE_ok {α β ε : Type} (f : α → Except ε β) (l : List α)
    (bs : List β) (h : mapE f l = .ok bs) (da : α) (db : β) :
    bs.length = l.length ∧
      ∀ k, k < l.length → f (l.getD k da) = .ok (bs.getD k db) := by
  induction l generalizing bs with
  | nil =>
      simp only [mapE] at h
      cases h
      simp
  | cons a rest ih =>
      simp only [mapE] at h
      rw [except_bind_ok] at h
      obtain ⟨b, hb, h⟩ := h
      rw [except_bind_ok] at h
      obtain ⟨brest, hbrest, hcons⟩ := h
      cases hcons
      obtain ⟨hlen, hget⟩ := ih brest hbrest
      refine ⟨by simp [hlen], ?_⟩
      intro k hk
      cases k with
      | zero => simpa using hb
      | succ k =>
          simp only [List.getD_cons_succ]
          exact hget k (by simpa using hk)

/-- Reading within bounds, `sliceFrom` succeeds with the dropped suffix. -/
theorem sliceFrom_ok {bytes : List Nat} {s : Nat} (h : s ≤ bytes.length) :
    sliceFrom bytes s = .ok (bytes.drop s) := by
  simp [sliceFrom, h]

/-- Reading within bounds, `takeExact` succeeds with the taken prefix. -/
theorem takeExact_ok {bytes : List Nat} {n : Nat} (h : n ≤ bytes.length) :
    takeExact bytes n = .ok (bytes.take n) := by
  simp [takeExact, h]

/-- Decoded byte width of a task-header state word: one byte for `U8`, four
for `U32`. -/
def StateType.width : StateType → Nat
  | .U8 => 1
  | .U32 => 4

/-- Binding a ready `Except.ok` just applies the continuation. -/
theorem except_ok_bind {ε α β : Type} (a : α) (f : α → Except ε β) :
    (Except.ok a >>= f : Except ε β) = f a := rfl

/-- C5: for both task-header state widths (one byte for `U8`, four bytes for
`U32`), `HeaderLayout::is_init` reads the state word at `state_offset` and
classifies the slot as initialized exactly when the little-endian value of
that window is nonzero — on either host byte order, since a word is zero
exactly when all its bytes are. -/
theorem c5_header_init_iff_le_nonzero (e : Endian) (h : HeaderLayout)
    (bytes : List Nat)
    (hlen : h.state_offset + h.state_type.width ≤ bytes.length) :
    ∃ b, HeaderLayout.is_init e h bytes = .ok b ∧
      (b = true ↔
        leDecode ((bytes.drop h.state_offset).take h.state_type.width) ≠ 0) := by
  have hoff : h.state_offset ≤ bytes.length := by
    have := h.state_type.width
    omega
  simp only [HeaderLayout.is_init]
  rw [sliceFrom_ok hoff, except_ok_bind]
  cases hst : h.state_type with
  | U8 =>
      have hlt : 0 < (bytes.drop h.state_offset).length := by
        rw [List.length_drop]
        rw [hst] at hlen
        simp only [StateType.width] at hlen
        omega
      obtain ⟨b, rest, heq⟩ :=
        List.exists_cons_of_ne_nil (List.ne_nil_of_length_pos hlt)
      refine ⟨decide (0 < b), ?_, ?_⟩
      · rw [heq]; rfl
      · simp only [StateType.width]
        rw [heq]
        have hle : leDecode ((b :: rest).take 1) = b := by
          simp [leDecode]
        rw [hle]
        simp [Nat.pos_iff_ne_zero]
  | U32 =>
      have hlt : 4 ≤ (bytes.drop h.state_offset).length := by
        rw [List.length_drop]
        rw [hst] at hlen
        simp only [StateType.width] at hlen
        omega
      refine ⟨decide (0 < neDecode e ((bytes.drop h.state_offset).take 4)), ?_, ?_⟩
      · show (takeExact (bytes.drop h.state_offset) 4 >>=
            fun w => Except.ok (decide (0 < neDecode e w))) = _
        rw [takeExact_ok hlt, except_ok_bind]
      · simp only [StateType.width]
        have hz := neDecode_eq_zero_iff e ((bytes.drop h.state_offset).take 4)
        constructor
        · intro hb
          have hpos : 0 < neDecode e ((bytes.drop h.state_offset).take 4) :=
            of_decide_eq_true hb
          intro hze
          rw [hz.mpr hze] at hpos
          omega
        · intro hnz
          have hne : neDecode e ((bytes.drop h.state_offset).take 4) ≠ 0 := by
            intro hze
            exact hnz (hz.mp hze)
          exact decide_eq_true (by omega)

/-- Witness for C5 at a concrete header layout and byte window. -/
theorem c5_header_init_iff_le_nonzero_witness :
    ((⟨1, .U32⟩ : HeaderLayout).state_offset
        + (⟨1, .U32⟩ : HeaderLayout).state_type.width ≤ 5) ∧
      ∃ b, HeaderLayout.is_init .be ⟨1, .U32⟩ [7, 0, 0, 1, 0] = .ok b ∧
        (b = true ↔
          leDecode ((([7, 0, 0, 1, 0] : List Nat).drop 1).take
            (⟨1, .U32⟩ : HeaderLayout).state_type.width) ≠ 0) :=
  ⟨by decide,
    c5_header_init_iff_le_nonzero .be ⟨1, .U32⟩ [7, 0, 0, 1, 0] (by decide)⟩

/-- A successfully decoded state value carries exactly the state it was
decoded for. -/
theorem stateValue_newWith_state (recF : FutureRec) (s : State)
    (bytes : List Nat) (t : AsyncFnType) (m : FutureTypes) (sv : StateValue)
    (h : StateValue.newWith recF s bytes t m = .ok sv) : sv.state = s := by
  simp only [StateValue.newWith] at h
  rw [except_bind_ok] at h
  obtain ⟨mv, _, h⟩ := h
  cases haw : s.awaitee with
  | none =>
      rw [haw, except_ok_bind] at h
      injection h with h
      rw [← h]
      rfl
  | some aw =>
      rw [haw] at h
      rw [except_bind_ok] at h
      obtain ⟨bs1, _, h⟩ := h
      rw [except_bind_ok] at h
      obtain ⟨bs2, _, h⟩ := h
      rw [except_bind_ok] at h
      obtain ⟨fv, _, h⟩ := h
      rw [except_ok_bind] at h
      injection h with h
      rw [← h]
      rfl

/-- C2: `AsyncFnValue::new` reads `state_member.size` bytes at
`state_member.offset`, decodes them little-endian zero-extended, and yields
`state_value = Ok(..)` for the first state whose `discriminant_value` matches
when one exists, and `state_value = Err(d)` carrying the decoded discriminant
when none does. -/
theorem c2_async_fn_discriminant_decode (fuel : Nat) (t : AsyncFnType)
    (bytes : List Nat) (m : FutureTypes) (d : Nat)
    (hw : t.state_member.size = 1 ∨ t.state_member.size = 2 ∨
      t.state_member.size = 4 ∨ t.state_member.size = 8)
    (hlen : t.state_member.offset + t.state_member.size ≤ bytes.length)
    (hd : d = leDecode
      ((bytes.drop t.state_member.offset).take t.state_member.size)) :
    ((∀ s ∈ t.states, s.discriminant_value ≠ d) →
      AsyncFnValue.new fuel t bytes m = .ok (AsyncFnValue.mk t (.error d))) ∧
    (∀ s, t.states.find? (fun s => s.discriminant_value = d) = some s →
      ∀ v, AsyncFnValue.new fuel t bytes m = .ok v →
        ∃ sv, v.state_value = .ok sv ∧ sv.state = s) := by
  have hoff : t.state_member.offset ≤ bytes.length := by omega
  have hread : readLeUint (bytes.drop t.state_member.offset)
      t.state_member.size = .ok d := by
    simp only [readLeUint]
    rw [if_pos hw, takeExact_ok (by rw [List.length_drop]; omega)]
    rw [hd]
    rfl
  constructor
  · intro hnone
    have hfind : t.states.find? (fun s => s.discriminant_value = d) = none := by
      apply List.find?_eq_none.mpr
      intro s hs
      simpa using hnone s hs
    simp only [AsyncFnValue.new, AsyncFnValue.newWith]
    rw [sliceFrom_ok hoff, except_ok_bind, hread, except_ok_bind, hfind]
  · intro s hfind v hv
    simp only [AsyncFnValue.new, AsyncFnValue.newWith] at hv
    rw [sliceFrom_ok hoff, except_ok_bind, hread, except_ok_bind, hfind] at hv
    rw [except_bind_ok] at hv
    obtain ⟨sv, hsv, hok⟩ := hv
    cases hok
    exact ⟨sv, rfl, stateValue_newWith_state _ s bytes t m sv hsv⟩

/-- Witness for C2: a one-byte discriminant `255` with no matching state
yields `state_value = Err(255)`. -/
theorem c2_async_fn_discriminant_decode_witness :
    AsyncFnValue.new 3 ⟨[], ⟨"__state", Ty.Unknown, 0, 1⟩, 1, []⟩ [255] []
      = .ok (AsyncFnValue.mk ⟨[], ⟨"__state", Ty.Unknown, 0, 1⟩, 1, []⟩
        (.error 255)) :=
  (c2_async_fn_discriminant_decode 3 ⟨[], ⟨"__state", Ty.Unknown, 0, 1⟩, 1, []⟩
      [255] [] 255 (Or.inl rfl) (by decide) (by decide)).1
    (by intro s hs; simp at hs)

/-- C6: the per-child decode of `JoinValue::new` reads the `MaybeDone`
discriminant at its own offset and width; a match with the `Future` variant
recurses through the child future type on the `Future` variant's bytes, a
match with the `Done` variant yields an opaque value carrying the stored
output bytes with the `Done` type attached, and any other discriminant yields
an empty opaque value of type `Void`. The cases are tested in this order. -/
theorem c6_join_child_decode (fuel : Nat) (offset : Nat) (jt : JoinAwaiteeType)
    (bytes : List Nat) (m : FutureTypes) (d : Nat)
    (hoff : offset ≤ bytes.length)
    (hdoff : jt.discriminant_offset ≤ bytes.length - offset)
    (hw : jt.discriminant_size = 1 ∨ jt.discriminant_size = 2 ∨
      jt.discriminant_size = 4 ∨ jt.discriminant_size = 8)
    (hdlen : jt.discriminant_size ≤
      bytes.length - offset - jt.discriminant_offset)
    (hd : d = leDecode (((bytes.drop offset).drop jt.discriminant_offset).take
      jt.discriminant_size)) :
    ((d = jt.future_variant.discriminant →
      jt.future_variant.offset + jt.future_variant.size ≤ bytes.length - offset →
      JoinValue.newChildWith (FutureValue.new fuel) offset jt bytes m
        = FutureValue.new fuel jt.future_variant.ty
            (((bytes.drop offset).drop jt.future_variant.offset).take
              jt.future_variant.size) m) ∧
    (d ≠ jt.future_variant.discriminant → d = jt.done_variant.discriminant →
      jt.done_variant.offset + jt.done_variant.size ≤ bytes.length - offset →
      JoinValue.newChildWith (FutureValue.new fuel) offset jt bytes m
        = .ok (FutureValue.mk jt.done_variant.ty
            (.Unknown (((bytes.drop offset).drop jt.done_variant.offset).take
              jt.done_variant.size)))) ∧
    (d ≠ jt.future_variant.discriminant → d ≠ jt.done_variant.discriminant →
      JoinValue.newChildWith (FutureValue.new fuel) offset jt bytes m
        = .ok (FutureValue.mk Ty.Void (.Unknown [])))) := by
  have hbs : (bytes.drop offset).length = bytes.length - offset :=
    List.length_drop offset bytes
  have hread : readLeUint ((bytes.drop offset).drop jt.discriminant_offset)
      jt.discriminant_size = .ok d := by
    simp only [readLeUint]
    rw [if_pos hw,
      takeExact_ok (by rw [List.length_drop, hbs]; omega)]
    rw [hd]
    rfl
  refine ⟨?_, ?_, ?_⟩
  · intro h1 hfb
    simp only [JoinValue.newChildWith]
    rw [sliceFrom_ok hoff, except_ok_bind,
      sliceFrom_ok (by rw [hbs]; omega), except_ok_bind, hread, except_ok_bind,
      if_pos h1,
      sliceFrom_ok (by rw [hbs]; omega), except_ok_bind,
      takeExact_ok (by rw [List.length_drop, hbs]; omega), except_ok_bind]
  · intro h1 h2 hdb
    simp only [JoinValue.newChildWith]
    rw [sliceFrom_ok hoff, except_ok_bind,
      sliceFrom_ok (by rw [hbs]; omega), except_ok_bind, hread, except_ok_bind,
      if_neg h1, if_pos h2,
      sliceFrom_ok (by rw [hbs]; omega), except_ok_bind,
      takeExact_ok (by rw [List.length_drop, hbs]; omega), except_ok_bind]
  · intro h1 h2
    simp only [JoinValue.newChildWith]
    rw [sliceFrom_ok hoff, except_ok_bind,
      sliceFrom_ok (by rw [hbs]; omega), except_ok_bind, hread, except_ok_bind,
      if_neg h1, if_neg h2]

/-- Witness for C6: a child whose discriminant selects the `Done` variant
yields the opaque value of the `Done` type carrying the stored byte. -/
theorem c6_join_child_decode_witness :
    JoinValue.newChildWith (FutureValue.new 3) 0
      ⟨0, 1, ⟨0, 1, 1, Ty.Base "A"⟩, ⟨1, 1, 1, Ty.Base "B"⟩⟩ [1, 42] []
      = .ok (FutureValue.mk (Ty.Base "B")
          (.Unknown (((([1, 42] : List Nat).drop 0).drop 1).take 1))) :=
  ((c6_join_child_decode 3 0
      ⟨0, 1, ⟨0, 1, 1, Ty.Base "A"⟩, ⟨1, 1, 1, Ty.Base "B"⟩⟩
      [1, 42] [] 1 (by decide) (by decide) (Or.inl rfl) (by decide)
      (by decide)).2.1) (by decide) rfl (by decide)

/-- Success of `Except.map` means success of the underlying computation. -/
theorem except_map_ok {ε α β : Type} {x : Except ε α} {f : α → β} {b : β} :
    x.map f = Except.ok b ↔ ∃ a, x = Except.ok a ∧ f a = b := by
  cases x with
  | error e =>
      constructor
      · intro h; exact absurd h (by simp [Except.map])
      · rintro ⟨a, ha, _⟩; cases ha
  | ok a =>
      constructor
      · intro h
        refine ⟨a, rfl, ?_⟩
        simpa [Except.map] using h
      · rintro ⟨a2, ha, hf⟩
        cases ha
        simp [Except.map, hf]

/-- Inversion for a successful `sliceFrom`. -/
theorem sliceFrom_ok_inv {bytes out : List Nat} {s : Nat}
    (h : sliceFrom bytes s = .ok out) :
    s ≤ bytes.length ∧ out = bytes.drop s := by
  by_cases hs : s ≤ bytes.length
  · rw [sliceFrom_ok hs] at h
    injection h with h
    exact ⟨hs, h.symm⟩
  · simp [sliceFrom, hs] at h

/-- Entry `k` of `List.range n` is `k`. -/
theorem getD_range (n k : Nat) (hk : k < n) : (List.range n).getD k 0 = k := by
  rw [List.getD_eq_getElem?_getD, List.getElem?_range hk]
  rfl

/-- C1: whenever `TaskPoolValue::new` succeeds on a byte window of the pool's
region, it yields one value per slot; slot `i` is read at offset
`i * slot_size` with `slot_size = size / slot_count`, classified by the
task-header init predicate, and an initialized slot is the future reified from
the slot's bytes starting at `future_offset` against the pool's async-fn
layout. -/
theorem c1_task_pool_reify (fuel : Nat) (e : Endian) (pool : TaskPool)
    (bytes : List Nat) (ft : FutureTypes)
    (hlen : bytes.length = pool.size)
    (v : TaskPoolValue)
    (hok : TaskPoolValue.new fuel e pool bytes ft = .ok v) :
    v.task_values.length = pool.number_of_tasks ∧
    ∀ i, i < pool.number_of_tasks →
      ((HeaderLayout.is_init e pool.header_layout
          (bytes.drop (pool.size / pool.number_of_tasks * i)) = .ok false →
        v.task_values.getD i .Uninit = .Uninit) ∧
      (HeaderLayout.is_init e pool.header_layout
          (bytes.drop (pool.size / pool.number_of_tasks * i)) = .ok true →
        ∃ av, AsyncFnValue.new fuel pool.async_fn_type
            ((bytes.drop (pool.size / pool.number_of_tasks * i)).drop
              pool.future_offset) ft = .ok av ∧
          v.task_values.getD i .Uninit =
            .Init (FutureValue.async_fn pool.async_fn_base_type av))) := by
  simp only [TaskPoolValue.new, TaskPoolValue.newBody] at hok
  rw [if_pos hlen] at hok
  by_cases hn : pool.number_of_tasks = 0
  · rw [if_pos hn] at hok
    exact absurd hok (by simp)
  · rw [if_neg hn] at hok
    rw [except_map_ok] at hok
    obtain ⟨tvs, hmap, hv⟩ := hok
    obtain ⟨hlens, hget⟩ :=
      mapE_ok _ (List.range pool.number_of_tasks) tvs hmap 0 TaskValue.Uninit
    have htv : v.task_values = tvs := by rw [← hv]
    constructor
    · rw [htv, hlens, List.length_range]
    · intro i hi
      have hslot := hget i (by simpa using hi)
      rw [getD_range _ _ hi] at hslot
      have hle : pool.size / pool.number_of_tasks * i ≤ bytes.length := by
        have h1 : pool.size / pool.number_of_tasks * i ≤
            pool.size / pool.number_of_tasks * pool.number_of_tasks :=
          Nat.mul_le_mul_left _ (Nat.le_of_lt hi)
        have h2 : pool.size / pool.number_of_tasks * pool.number_of_tasks ≤
            pool.size := Nat.div_mul_le_self _ _
        omega
      rw [sliceFrom_ok hle, except_ok_bind] at hslot
      constructor
      · intro hinit
        rw [hinit, except_ok_bind] at hslot
        simp only [Bool.false_eq_true, if_false] at hslot
        injection hslot with hslot
        rw [htv, ← hslot]
      · intro hinit
        rw [hinit, except_ok_bind] at hslot
        simp only [if_true] at hslot
        rw [except_bind_ok] at hslot
        obtain ⟨fb, hfb, hslot⟩ := hslot
        obtain ⟨_, hfbeq⟩ := sliceFrom_ok_inv hfb
        rw [except_bind_ok] at hslot
        obtain ⟨av, hav, hslot⟩ := hslot
        injection hslot with hslot
        refine ⟨av, ?_, ?_⟩
        · rw [← hfbeq]; exact hav
        · rw [htv, ← hslot]

/-- A concrete two-slot pool: one byte of header then one byte of future state
per slot. -/
def c1Pool : TaskPool :=
  ⟨"p", 0, 4, 1, 2, ⟨[], ⟨"__state", Ty.Unknown, 0, 1⟩, 1, []⟩, Ty.Base "T",
    ⟨0, .U8⟩⟩

/-- The reified value of `c1Pool` on the window `[0, 9, 1, 5]`: slot 0 is
uninitialised, slot 1 holds a future with unmatched discriminant `5`. -/
def c1Value : TaskPoolValue :=
  ⟨c1Pool, [TaskValue.Uninit,
    TaskValue.Init (FutureValue.async_fn (Ty.Base "T")
      (AsyncFnValue.mk ⟨[], ⟨"__state", Ty.Unknown, 0, 1⟩, 1, []⟩
        (Except.error 5)))]⟩

/-- Witness for C1 at the concrete pool `c1Pool`. -/
theorem c1_task_pool_reify_witness :
    c1Value.task_values.length = 2 ∧
      c1Value.task_values.getD 0 .Uninit = .Uninit :=
  ⟨(c1_task_pool_reify 3 .le c1Pool [0, 9, 1, 5] [] rfl c1Value rfl).1,
    ((c1_task_pool_reify 3 .le c1Pool [0, 9, 1, 5] [] rfl c1Value rfl).2 0
      (by decide)).1 rfl⟩

/-- C10: `TaskPoolValue::new` has the precondition that the byte window's
length equals the pool's size: any other length fails the `assert_eq!` before
decoding; and on the snapshot path the assertion never fires, because
`update_values` reads exactly `pool.size` bytes per pool in one `read_memory`
call — under the adapter contract that a successful read returns the requested
number of bytes, `update_values` coincides with the variant that skips the
assertion. -/
theorem c10_length_assertion :
    (∀ (fuel : Nat) (e : Endian) (pool : TaskPool) (bytes : List Nat)
        (ft : FutureTypes), bytes.length ≠ pool.size →
      TaskPoolValue.new fuel e pool bytes ft = .error .panic) ∧
    (∀ (fuel : Nat) (e : Endian) (pools : List TaskPool) (ft : FutureTypes)
        (cb : Callback),
      (∀ a l bs, cb.read_memory a l = .ok bs → bs.length = l) →
      update_values fuel e pools ft cb
        = update_values_unchecked fuel e pools ft cb) := by
  constructor
  · intro fuel e pool bytes ft hne
    simp only [TaskPoolValue.new]
    rw [if_neg hne]
  · intro fuel e pools ft cb hc
    induction pools with
    | nil => rfl
    | cons pool rest ih =>
        simp only [update_values, update_values_unchecked]
        cases hr : cb.read_memory pool.address pool.size with
        | error s => exact ih
        | ok bytes =>
            have hb : bytes.length = pool.size := hc _ _ _ hr
            have hnew : TaskPoolValue.new fuel e pool bytes ft
                = TaskPoolValue.newBody fuel e pool bytes ft := by
              simp only [TaskPoolValue.new]
              rw [if_pos hb]
            have hgoal : (do
                  let v ← TaskPoolValue.new fuel e pool bytes ft
                  let vs ← update_values fuel e rest ft cb
                  Except.ok (v :: vs)) = (do
                  let v ← TaskPoolValue.newBody fuel e pool bytes ft
                  let vs ← update_values_unchecked fuel e rest ft cb
                  Except.ok (v :: vs)) := by
              rw [hnew, ih]
            exact hgoal

/-- A one-slot pool of size 2, for the C10 witness. -/
def c10Pool : TaskPool :=
  ⟨"p", 0, 2, 1, 1, ⟨[], ⟨"__state", Ty.Unknown, 0, 1⟩, 1, []⟩, Ty.Base "T",
    ⟨0, .U8⟩⟩

/-- An adapter oracle that returns exactly the requested number of zero
bytes. -/
def c10Callback : Callback :=
  ⟨fun _ l => .ok (List.replicate l 0), .ok (), fun a => .ok a⟩

/-- Witness for C10: a three-byte window on a size-4 pool panics at the
assertion, and the snapshot path on `c10Callback` never reaches it. -/
theorem c10_length_assertion_witness :
    TaskPoolValue.new 1 .le c1Pool [0, 0, 0] [] = .error .panic ∧
      update_values 1 .le [c10Pool] [] c10Callback
        = update_values_unchecked 1 .le [c10Pool] [] c10Callback :=
  ⟨c10_length_assertion.1 1 .le c1Pool [0, 0, 0] [] (by decide),
    c10_length_assertion.2 1 .le [c10Pool] [] c10Callback
      (by
        intro a l bs h
        injection h with h
        rw [← h, List.length_replicate])⟩

/-- C4 (recording the code bug): a pool with `slot_count = 0` makes
`TaskPoolValue::new` divide `size` by zero — a Rust panic — before the slot
loop, instead of producing an empty task list. -/
theorem c4_zero_slot_count_panics :
    TaskPoolValue.new 1 .le
      ⟨"p", 0, 2, 0, 0, ⟨[], ⟨"__state", Ty.Unknown, 0, 1⟩, 1, []⟩,
        Ty.Base "T", ⟨0, .U8⟩⟩ [0, 0] [] = .error .panic := rfl

/-- A future-type table with a cyclic type reference: the type `cyc` is a
select-like combinator whose single child at offset 0 is `cyc` itself. -/
def cyclicFutureTypes : FutureTypes :=
  [(Ty.Base "cyc", ⟨.Select ⟨[(0, Ty.Base "cyc")]⟩⟩)]

/-- Binding a ready error short-circuits. -/
theorem except_error_bind {ε α β : Type} (err : ε) (f : α → Except ε β) :
    (Except.error err >>= f : Except ε β) = .error err := rfl

/-- On the cyclic table, the reifier exhausts every fuel bound: the recursion
of the source (which has no depth cap) does not terminate there. -/
theorem cyclic_reify_out_of_fuel :
    ∀ (n : Nat) (bytes : List Nat),
      FutureValue.new n (Ty.Base "cyc") bytes cyclicFutureTypes
        = .error .fuel := by
  intro n
  induction n with
  | zero => intro bytes; rfl
  | succ n ih =>
      intro bytes
      have hlook : lookupFutureType cyclicFutureTypes (Ty.Base "cyc")
          = some ⟨.Select ⟨[(0, Ty.Base "cyc")]⟩⟩ := rfl
      simp only [FutureValue.new]
      rw [hlook]
      simp only [SelectValue.newWith, mapE]
      rw [sliceFrom_ok (Nat.zero_le _), except_ok_bind, ih (bytes.drop 0),
        except_error_bind, except_error_bind]
      rfl

/-- The reifier diverges at this input: every fuel bound is exhausted. -/
def reifyDiverges (m : FutureTypes) (ty : Ty) (bytes : List Nat) : Prop :=
  ∀ n, FutureValue.new n ty bytes m = .error .fuel

/-- C9 counterexample: for the cyclic `future_types` table the reifier's
recursion does not terminate — no recursion-depth bound (64 or any other)
suffices, refuting the claim that the recursion is depth-capped even for
malformed, cyclic type references. -/
theorem c9_reifier_unbounded_counterexample :
    reifyDiverges cyclicFutureTypes (Ty.Base "cyc") [] :=
  fun n => cyclic_reify_out_of_fuel n []

/-- C9 (amended): the reifier has no recursion-depth cap; on a `future_types`
table with a cyclic type reference its recursion fails to terminate — for
every fuel bound `n` and any byte window, evaluation still runs out of fuel.
Termination holds only for tables without such cycles (which real debug info
produces), not for arbitrary malformed ones. -/
theorem c9_reifier_no_depth_cap (n : Nat) (bytes : List Nat) :
    FutureValue.new n (Ty.Base "cyc") bytes cyclicFutureTypes
      = .error .fuel :=
  cyclic_reify_out_of_fuel n bytes

/-- A controller state with one registered safepoint breakpoint id `7` and no
task pools. -/
def c8Inspector : EmbassyInspector := ⟨[7], [], [], []⟩

/-- An adapter whose `resume` fails. -/
def c8Callback : Callback :=
  ⟨fun _ _ => .ok [], .error "resume failed", fun a => .ok a⟩

/-- C8 counterexample: handling a `Breakpoint` event whose id is a registered
safepoint breakpoint propagates the `resume` error to the caller (the source
writes `callback.resume()?`), refuting the claim that runtime resume errors
are only logged. -/
theorem c8_runtime_resume_counterexample :
    handle_event 1 .le c8Inspector c8Callback (.Breakpoint 7)
      = .error (.failure "resume failed") := rfl

/-- C8 (amended): adapter errors from `resume` are propagated to the caller
both at construction and while handling a `Breakpoint` event for a registered
safepoint id; what is logged and skipped at runtime are per-pool `read_memory`
failures during a snapshot. -/
theorem c8_runtime_error_handling :
    (∀ (fuel : Nat) (e : Endian) (insp : EmbassyInspector) (cb : Callback)
        (i : Nat) (msg : String) (vs : List TaskPoolValue),
      update_values fuel e insp.task_pools insp.future_types cb = .ok vs →
      insp.poll_break_point_ids.contains i = true →
      cb.resume = .error msg →
      handle_event fuel e insp cb (.Breakpoint i) = .error (.failure msg)) ∧
    (∀ (fuel : Nat) (e : Endian) (pool : TaskPool) (rest : List TaskPool)
        (ft : FutureTypes) (cb : Callback) (s : String),
      cb.read_memory pool.address pool.size = .error s →
      update_values fuel e (pool :: rest) ft cb
        = update_values fuel e rest ft cb) := by
  constructor
  · intro fuel e insp cb i msg vs hupd hcont hres
    simp only [handle_event]
    rw [hupd]
    simp [hcont, hres]
    exact List.mem_of_elem_eq_true hcont
  · intro fuel e pool rest ft cb s hread
    simp only [update_values]
    rw [hread]

/-- Witness for C8 (amended) at a concrete controller state and adapter. -/
theorem c8_runtime_error_handling_witness :
    handle_event 1 .le ⟨[3], [], [], []⟩
      ⟨fun _ _ => .ok [], .error "boom", fun a => .ok a⟩ (.Breakpoint 3)
      = .error (.failure "boom") :=
  c8_runtime_error_handling.1 1 .le ⟨[3], [], [], []⟩
    ⟨fun _ _ => .ok [], .error "boom", fun a => .ok a⟩ 3 "boom" [] rfl rfl rfl

/-- Functions on which `poll_scan_step` does not stop leave the scan
unchanged. -/
theorem poll_scan_append (pre rest : List DFunction)
    (hpre : ∀ g ∈ pre, poll_scan_step g = none) :
    poll_scan (pre ++ rest) = poll_scan rest := by
  induction pre with
  | nil => rfl
  | cons g pre ih =>
      simp only [List.cons_append, poll_scan]
      rw [hpre g (List.mem_cons_self g pre)]
      exact ih (fun x hx => hpre x (List.mem_cons_of_mem g hx))

/-- A candidate with exactly one range stops the scan with `[range.end - 4]`. -/
theorem poll_scan_step_single {f : DFunction} {r : DRange}
    (hf : is_poll_candidate f = true) (hr : f.ranges = [r]) :
    poll_scan_step f = some (.inl [r.rend - 4]) := by
  simp only [poll_scan_step, hf, if_true, hr]

/-- An inlined candidate without a single range stops the scan with itself. -/
theorem poll_scan_step_inline {f : DFunction}
    (hf : is_poll_candidate f = true) (hr : ∀ r, f.ranges ≠ [r])
    (hinl : f.is_inline = true) :
    poll_scan_step f = some (.inr f) := by
  simp only [poll_scan_step, hf, if_true]
  cases hranges : f.ranges with
  | nil => simp [hinl]
  | cons a rest =>
      cases rest with
      | nil => exact absurd hranges (hr a)
      | cons b rest2 => simp [hinl]

mutual
/-- The addresses collected by `find_function_in_inlined` are exactly the ends
of the nonzero-begin ranges of the preorder-visited inlinings whose abstract
origin is the candidate. -/
theorem find_in_inlined_preorder (f : DFunction) (inl : DInlinedFunction) :
    find_function_in_inlined f inl
      = (DInlinedFunction.preorder inl).flatMap
          (fun node => if node.abstract_origin = some f.id then
              (node.ranges.filter (fun rg => decide (rg.rbegin ≠ 0))).map
                (fun rg => rg.rend)
            else []) :=
  match inl with
  | .mk o r fs => by
      simp only [find_function_in_inlined, DInlinedFunction.preorder,
        List.flatMap_cons]
      rw [find_in_forest_preorder f fs]
      rfl

/-- Forest version of `find_in_inlined_preorder`. -/
theorem find_in_forest_preorder (f : DFunction) (fs : DInlinedForest) :
    find_function_in_inlined_forest f fs
      = (DInlinedForest.preorder fs).flatMap
          (fun node => if node.abstract_origin = some f.id then
              (node.ranges.filter (fun rg => decide (rg.rbegin ≠ 0))).map
                (fun rg => rg.rend)
            else []) :=
  match fs with
  | .nil => rfl
  | .cons head tail => by
      simp only [find_function_in_inlined_forest, DInlinedForest.preorder,
        List.flatMap_append]
      rw [find_in_inlined_preorder f head, find_in_forest_preorder f tail]
end

/-- C3: the safepoint locator. A candidate executor poll function with exactly
one address range (reached first by the scan) yields the single safepoint
`range.end - 4`; an inlined candidate without a single range yields, over all
functions, the addresses collected from their inlined-function trees; and that
collection is exactly `range.end` for every range with nonzero `begin` of
every inlining (visited recursively in preorder) whose abstract origin is the
candidate, ranges beginning at 0 being skipped. -/
theorem c3_safepoint_locator :
    (∀ (units : List (List DFunction)) (pre post : List DFunction)
        (f : DFunction) (r : DRange),
      units.flatten = pre ++ f :: post →
      (∀ g ∈ pre, poll_scan_step g = none) →
      is_poll_candidate f = true →
      f.ranges = [r] →
      find_poll_function_addresses units = [r.rend - 4]) ∧
    (∀ (units : List (List DFunction)) (pre post : List DFunction)
        (f : DFunction),
      units.flatten = pre ++ f :: post →
      (∀ g ∈ pre, poll_scan_step g = none) →
      is_poll_candidate f = true →
      (∀ r, f.ranges ≠ [r]) →
      f.is_inline = true →
      find_poll_function_addresses units
        = (units.flatten).flatMap
            (fun g => find_function_in_inlined_forest f g.inlined_functions)) ∧
    (∀ (f : DFunction) (inl : DInlinedFunction),
      find_function_in_inlined f inl
        = (DInlinedFunction.preorder inl).flatMap
            (fun node => if node.abstract_origin = some f.id then
                (node.ranges.filter (fun rg => decide (rg.rbegin ≠ 0))).map
                  (fun rg => rg.rend)
              else [])) := by
  refine ⟨?_, ?_, find_in_inlined_preorder⟩
  · intro units pre post f r hflat hpre hf hr
    simp only [find_poll_function_addresses]
    rw [hflat, poll_scan_append pre (f :: post) hpre]
    simp only [poll_scan]
    rw [poll_scan_step_single hf hr]
  · intro units pre post f hflat hpre hf hr hinl
    simp only [find_poll_function_addresses]
    rw [hflat, poll_scan_append pre (f :: post) hpre]
    simp only [poll_scan]
    rw [poll_scan_step_inline hf hr hinl]

/-- A concrete single-range executor poll candidate. -/
def c3Fn : DFunction :=
  ⟨0, some "\x7bclosure", some "SyncExecutor",
    some "embassy_executor::raw::x::poll", [⟨16, 32⟩], false, .nil⟩

/-- Witness for C3 at a one-unit file holding the single-range candidate. -/
theorem c3_safepoint_locator_witness :
    find_poll_function_addresses [[c3Fn]] = [(⟨16, 32⟩ : DRange).rend - 4] :=
  c3_safepoint_locator.1 [[c3Fn]] [] [] c3Fn ⟨16, 32⟩ rfl
    (fun g hg => absurd hg (List.not_mem_nil g)) (by decide) rfl

/-- A found index is within the list. -/
theorem findIdx?_some_lt {α : Type} {p : α → Bool} {l : List α} {k : Nat}
    (h : l.findIdx? p = some k) : k < l.length :=
  (List.findIdx?_eq_some_iff_findIdx_eq.mp h).1

/-- Membership guarantees the first-index lookup succeeds. -/
theorem findIdx?_of_mem {α : Type} [DecidableEq α] {a : α} {l : List α}
    (h : a ∈ l) : ∃ k, l.findIdx? (fun x => x = a) = some k := by
  cases hf : l.findIdx? (fun x => x = a) with
  | some k => exact ⟨k, rfl⟩
  | none =>
      have := List.findIdx?_eq_none_iff.mp hf a h
      simp at this

/-- The member loop keeps every recorded id within the accumulated member
list, which only grows. -/
theorem processVariantMembers_bounds :
    ∀ (dms : List DMember) (members : List Member) (active : List Nat)
      (aw : Option Member) (members' : List Member) (active' : List Nat)
      (aw' : Option Member),
      processVariantMembers dms members active aw = .ok (members', active', aw') →
      (∀ i ∈ active, i < members.length) →
      members.length ≤ members'.length ∧ ∀ i ∈ active', i < members'.length := by
  intro dms
  induction dms with
  | nil =>
      intro members active aw members' active' aw' h hact
      simp only [processVariantMembers, Except.ok.injEq, Prod.mk.injEq] at h
      obtain ⟨h1, h2, h3⟩ := h
      subst h1
      subst h2
      exact ⟨Nat.le_refl _, hact⟩
  | cons dm rest ih =>
      intro members active aw members' active' aw' h hact
      simp only [processVariantMembers] at h
      rw [except_bind_ok] at h
      obtain ⟨member, hmem, h⟩ := h
      by_cases h1 : member.name = "__awaitee"
      · rw [if_pos h1] at h
        by_cases h2 : aw.isSome
        · rw [if_pos h2] at h
          exact absurd h (by simp)
        · rw [if_neg h2] at h
          exact ih members active (some member) members' active' aw' h hact
      · rw [if_neg h1] at h
        by_cases h2 : member.size = 0
        · rw [if_pos h2] at h
          exact ih members active aw members' active' aw' h hact
        · rw [if_neg h2] at h
          cases hidx : members.findIdx? (fun m => m = member) with
          | some id =>
              rw [hidx] at h
              refine ih members _ aw members' active' aw' h ?_
              intro i hi
              by_cases hc : active.contains id
              · rw [if_pos hc] at hi
                exact hact i hi
              · rw [if_neg hc] at hi
                rcases List.mem_append.mp hi with hi | hi
                · exact hact i hi
                · rw [List.mem_singleton.mp hi]
                  exact findIdx?_some_lt hidx
          | none =>
              rw [hidx] at h
              have hres := ih (members ++ [member]) _ aw members' active' aw' h ?_
              · refine ⟨?_, hres.2⟩
                have := hres.1
                rw [List.length_append] at this
                omega
              · intro i hi
                rw [List.length_append, List.length_cons, List.length_nil]
                by_cases hc : active.contains members.length
                · rw [if_pos hc] at hi
                  have := hact i hi
                  omega
                · rw [if_neg hc] at hi
                  rcases List.mem_append.mp hi with hi | hi
                  · have := hact i hi
                    omega
                  · rw [List.mem_singleton.mp hi]
                    omega

/-- A state built by `State::from_ddbug_variant` carries the given id list. -/
theorem from_ddbug_variant_active (v : DVariant) (act : List Nat)
    (aw : Option Member) (s : State)
    (h : State.from_ddbug_variant v act aw = .ok s) : s.active_members = act := by
  simp only [State.from_ddbug_variant] at h
  cases hd : v.discriminant_value with
  | none =>
      simp only [hd, except_error_bind] at h
      exact absurd h (by simp)
  | some d =>
      simp only [hd, except_ok_bind] at h
      injection h with h
      rw [← h]

/-- The variant loop keeps every state's ids within the final member list. -/
theorem processVariants_bounds :
    ∀ (vs : List DVariant) (members : List Member) (states : List State)
      (members' : List Member) (states' : List State),
      processVariants vs members states = .ok (members', states') →
      (∀ s ∈ states, ∀ i ∈ s.active_members, i < members.length) →
      members.length ≤ members'.length ∧
        ∀ s ∈ states', ∀ i ∈ s.active_members, i < members'.length := by
  intro vs
  induction vs with
  | nil =>
      intro members states members' states' h hstates
      simp only [processVariants, Except.ok.injEq, Prod.mk.injEq] at h
      obtain ⟨h1, h2⟩ := h
      subst h1
      subst h2
      exact ⟨Nat.le_refl _, hstates⟩
  | cons v rest ih =>
      intro members states members' states' h hstates
      simp only [processVariants] at h
      rw [except_bind_ok] at h
      obtain ⟨⟨m1, act, aw⟩, hpm, h⟩ := h
      rw [except_bind_ok] at h
      obtain ⟨s, hs, h⟩ := h
      obtain ⟨hgrow, hact⟩ := processVariantMembers_bounds v.members members []
        none m1 act aw hpm (by intro i hi; exact absurd hi (List.not_mem_nil i))
      have hres := ih m1 (states ++ [s]) members' states' h ?_
      · exact ⟨Nat.le_trans hgrow hres.1, hres.2⟩
      · intro s2 hs2 i hi
        rcases List.mem_append.mp hs2 with hs2 | hs2
        · exact Nat.lt_of_lt_of_le (hstates s2 hs2 i hi) hgrow
        · rw [List.mem_singleton.mp hs2] at hi
          rw [from_ddbug_variant_active v act aw s hs] at hi
          exact hact i hi

/-- After `sort_members_by_offset` the member list is ascending by offset. -/
theorem sort_members_sorted (t : AsyncFnType) :
    List.Pairwise (fun a b => a.offset ≤ b.offset)
      (AsyncFnType.sort_members_by_offset t).members := by
  simp only [AsyncFnType.sort_members_by_offset]
  haveI : IsTotal Nat (fun a b =>
      (t.members.getD a default).offset ≤ (t.members.getD b default).offset) :=
    ⟨fun a b => Nat.le_total _ _⟩
  haveI : IsTrans Nat (fun a b =>
      (t.members.getD a default).offset ≤ (t.members.getD b default).offset) :=
    ⟨fun a b c hab hbc => Nat.le_trans hab hbc⟩
  rw [List.pairwise_map]
  exact List.sorted_insertionSort _ _

/-- After `sort_members_by_offset`, state ids stay within the member list. -/
theorem sort_members_bounds (t : AsyncFnType)
    (h : ∀ s ∈ t.states, ∀ i ∈ s.active_members, i < t.members.length) :
    ∀ s ∈ (AsyncFnType.sort_members_by_offset t).states,
      ∀ i ∈ s.active_members,
        i < (AsyncFnType.sort_members_by_offset t).members.length := by
  intro s hs i hi
  simp only [AsyncFnType.sort_members_by_offset] at hs hi ⊢
  have hperm := List.perm_insertionSort
    (fun a b =>
      (t.members.getD a default).offset ≤ (t.members.getD b default).offset)
    (List.range t.members.length)
  have hlen : (List.insertionSort
      (fun a b =>
        (t.members.getD a default).offset ≤ (t.members.getD b default).offset)
      (List.range t.members.length)).length = t.members.length := by
    rw [hperm.length_eq, List.length_range]
  rw [List.length_map, hlen]
  obtain ⟨s0, hs0, rfl⟩ := List.mem_map.mp hs
  simp only at hi
  have hi2 := (List.perm_insertionSort (fun a b => a ≤ b) _).mem_iff.mp hi
  obtain ⟨j, hj, rfl⟩ := List.mem_map.mp hi2
  have hjlt : j < t.members.length := h s0 hs0 j hj
  have hjmem : j ∈ List.insertionSort
      (fun a b =>
        (t.members.getD a default).offset ≤ (t.members.getD b default).offset)
      (List.range t.members.length) :=
    hperm.mem_iff.mpr (List.mem_range.mpr hjlt)
  obtain ⟨k, hk⟩ := findIdx?_of_mem hjmem
  rw [hk]
  have := findIdx?_some_lt hk
  rw [hlen] at this
  simpa using this

/-- C7 (amended): every layout produced by `AsyncFnType::from_ddbug_struct`
has its member list sorted ascending by offset, and every state's
`active_members` indices lie within the member list. (The extractor does not
validate `offset + size ≤ total_size` nor the pairwise distinctness of state
discriminants; see the counterexample.) -/
theorem c7_layout_extractor_invariants (st : DStruct) (L : AsyncFnType)
    (h : AsyncFnType.from_ddbug_struct st = .ok L) :
    List.Pairwise (fun a b => a.offset ≤ b.offset) L.members ∧
    ∀ s ∈ L.states, ∀ i ∈ s.active_members, i < L.members.length := by
  simp only [AsyncFnType.from_ddbug_struct] at h
  cases hvps : st.variant_parts with
  | nil =>
      simp only [hvps, except_error_bind] at h
      exact absurd h (by simp)
  | cons vp vrest =>
      cases vrest with
      | cons vp2 vrest2 =>
          simp only [hvps, except_error_bind] at h
          exact absurd h (by simp)
      | nil =>
          simp only [hvps, except_ok_bind] at h
          rw [except_bind_ok] at h
          obtain ⟨ms, hpv, h⟩ := h
          obtain ⟨members, states⟩ := ms
          cases hms : st.members with
          | nil =>
              simp only [hms, except_error_bind] at h
              exact absurd h (by simp)
          | cons m0 mrest =>
              cases mrest with
              | cons m1 mrest2 =>
                  simp only [hms, except_error_bind] at h
                  exact absurd h (by simp)
              | nil =>
                  simp only [hms, except_ok_bind] at h
                  rw [except_bind_ok] at h
                  obtain ⟨sm, hsm, h⟩ := h
                  by_cases hname : sm.name = "__state"
                  · rw [if_pos hname] at h
                    cases hbs : st.byte_size with
                    | none =>
                        simp only [hbs, except_error_bind] at h
                        exact absurd h (by simp)
                    | some ts =>
                        simp only [hbs, except_ok_bind] at h
                        injection h with h
                        have hbounds := (processVariants_bounds vp.variants
                          [] [] members states hpv
                          (by intro s hs
                              exact absurd hs (List.not_mem_nil s))).2
                        rw [← h]
                        exact ⟨sort_members_sorted ⟨members, sm, ts, states⟩,
                          sort_members_bounds ⟨members, sm, ts, states⟩ hbounds⟩
                  · rw [if_neg hname] at h
                    exact absurd h (by simp)

/-- A well-formed one-state coroutine struct record. -/
def c7Good : DStruct :=
  ⟨some 8,
   [⟨some "__state", some Ty.Unknown, 0, some 8⟩],
   [⟨[⟨some "S0", some 0, [⟨some "a", some Ty.Unknown, 32, some 32⟩], none⟩]⟩]⟩

/-- The layout extracted from `c7Good`. -/
def c7GoodLayout : AsyncFnType :=
  ⟨[⟨"a", Ty.Unknown, 4, 4⟩], ⟨"__state", Ty.Unknown, 0, 1⟩, 8,
   [⟨0, [0], none, "S0", none⟩]⟩

/-- Witness for C7 (amended) at the concrete struct `c7Good`. -/
theorem c7_layout_extractor_invariants_witness :
    List.Pairwise (fun a b => a.offset ≤ b.offset) c7GoodLayout.members ∧
    ∀ s ∈ c7GoodLayout.states, ∀ i ∈ s.active_members,
      i < c7GoodLayout.members.length :=
  c7_layout_extractor_invariants c7Good c7GoodLayout rfl

/-- A malformed struct record: a 4-byte variant member at offset 100 in a type
whose byte size is 8, and two variants sharing discriminant 0. The extractor
accepts it unchanged. -/
def c7Bad : DStruct :=
  ⟨some 8,
   [⟨some "__state", some Ty.Unknown, 0, some 8⟩],
   [⟨[⟨some "S0", some 0, [⟨some "a", some Ty.Unknown, 800, some 32⟩], none⟩,
      ⟨some "S1", some 0, [], none⟩]⟩]⟩

/-- The layout extracted from `c7Bad`. -/
def c7BadLayout : AsyncFnType :=
  ⟨[⟨"a", Ty.Unknown, 100, 4⟩], ⟨"__state", Ty.Unknown, 0, 1⟩, 8,
   [⟨0, [0], none, "S0", none⟩, ⟨0, [], none, "S1", none⟩]⟩

/-- C7 counterexample: `from_ddbug_struct` yields a layout with an active
member extending past `total_size` and with two states sharing a discriminant
value, refuting the claimed `offset + size ≤ total_size` bound and the
pairwise distinctness of discriminants. -/
theorem c7_layout_extractor_invariants_counterexample :
    AsyncFnType.from_ddbug_struct c7Bad = .ok c7BadLayout ∧
    (∃ s ∈ c7BadLayout.states, ∃ i ∈ s.active_members,
      c7BadLayout.total_size <
        (c7BadLayout.members.getD i default).offset
          + (c7BadLayout.members.getD i default).size) ∧
    ∃ s1 ∈ c7BadLayout.states, ∃ s2 ∈ c7BadLayout.states,
      s1 ≠ s2 ∧ s1.discriminant_value = s2.discriminant_value :=
  ⟨rfl, by decide, by decide⟩
